import Mathlib

/-!
Shallow embedding of the mbedTLS-backed LibTomCrypt math descriptor
(`mbedtls_mpi_desc` in `src/demos/timing.c`).

The adapter in the source delegates its arithmetic to mbedTLS `mbedtls_mpi_*`
routines.  The adapter code itself (error translation, small-operand checks,
the `compare_d` chunk loop, the Montgomery glue, the `exptmod` aliasing
defence, `get_int`/`neg` representation handling) is embedded directly from
the source.  The mbedTLS primitives are an external library that is not part
of this repository; wherever one of them decides a property it is modelled
from the specification's description and marked `Modelled from the spec:` in
its doc comment.

Machine integers are modelled as `Nat`/`Int` with explicit `% 2 ^ 32` where
truncation matters.  An `mbedtls_mpi` is a sign together with a little-endian
list of 32-bit digits (`MPInt`); purely arithmetic operations are modelled at
the level of the signed value.  `CRYPT_OK` is `Except.ok`; the three error
codes of the taxonomy are the constructors of `CryptErr`.
-/

namespace MPIDesc

/-- Width in bits of one `mbedtls_mpi_uint` digit.  The adapter's
small-operand entry points truncate through `uint32_t`, fixing the digit
width it assumes at 32 bits. -/
def limbBits : Nat := 32

/-- Value base of one digit: `2 ^ limbBits`. -/
def base : Nat := 2 ^ limbBits

/-- The three LibTomCrypt error codes surfaced by the adapter.  A successful
call (`CRYPT_OK`) is `Except.ok`. -/
inductive CryptErr where
  | CRYPT_MEM
  | CRYPT_ERROR
  | CRYPT_INVALID_ARG
deriving DecidableEq

/-- Comparison verdicts `LTC_MP_LT` / `LTC_MP_EQ` / `LTC_MP_GT`. -/
inductive MpOrd where
  | LTC_MP_LT
  | LTC_MP_EQ
  | LTC_MP_GT
deriving DecidableEq

/-- One `mbedtls_mpi`: sign `s` (1 or -1) and the stored limbs `p[0..n-1]`,
least-significant limb first, each a 32-bit word. -/
structure MPInt where
  s : Int
  digits : List Nat
deriving DecidableEq

/-- Magnitude denoted by a little-endian digit list. -/
def magVal : List Nat → Nat
  | [] => 0
  | d :: ds => d + base * magVal ds

/-- Signed value denoted by an `MPInt`. -/
def val (a : MPInt) : Int := a.s * (magVal a.digits : Int)

/-- `get_int` from source: `if (!bn->n) return 0; return bn->p[bn->n - 1];`.
With zero stored limbs it returns 0, otherwise the limb at index `n - 1`,
which in the little-endian limb order is the last (most-significant) stored
limb. -/
def get_int (a : MPInt) : Nat :=
  match a.digits.getLast? with
  | none => 0
  | some d => d

/-- `neg` from source: copy the operand, then `b->s *= -1`.  The sign is
flipped unconditionally, with no special case for a zero magnitude. -/
def neg (a : MPInt) : MPInt := ⟨a.s * -1, a.digits⟩

/-- Modelled from the spec: `mbedtls_mpi_cmp_mpi` is the backend signed
comparison (comparisons must treat trimmed and untrimmed representations as
equal, so it is a function of the two signed values), returning a negative,
zero or positive `int`. -/
def mbedtls_mpi_cmp_mpi (x y : Int) : Int :=
  if x < y then -1 else if y < x then 1 else 0

/-- `compare` from source: translate the backend comparison result into
`LTC_MP_LT` / `LTC_MP_GT` / `LTC_MP_EQ`. -/
def compare (x y : Int) : MpOrd :=
  if mbedtls_mpi_cmp_mpi x y < 0 then .LTC_MP_LT
  else if 0 < mbedtls_mpi_cmp_mpi x y then .LTC_MP_GT
  else .LTC_MP_EQ

/-- Chunk shift of the `compare_d` loop: `shift = 31`. -/
def chunkShift : Nat := 31

/-- Chunk mask of the `compare_d` loop: `mask = BIT(31) - 1`. -/
def chunkMask : Nat := 2 ^ chunkShift - 1

/-- The `compare_d` accumulation loop from source, fuel-indexed so that it is
structurally recursive (the C loop runs until the shifted-down wide operand
`v` reaches zero, which takes at most `v` iterations):
`while (1) { bn += v & mask; v >>= shift; if (!v) break; bn <<= shift; }`. -/
def compareDLoopF : Nat → Nat → Nat → Nat
  | 0, bn, v => bn + (v &&& chunkMask)
  | fuel + 1, bn, v =>
    let bn1 := bn + (v &&& chunkMask)
    let v1 := v >>> chunkShift
    if v1 = 0 then bn1 else compareDLoopF fuel (bn1 <<< chunkShift) v1

/-- Value accumulated into `bn` by the `compare_d` loop, starting from the
freshly initialised (zero) `bn`. -/
def compareDValue (v : Nat) : Nat := compareDLoopF v 0 v

/-- `compare_d` from source: build `bn` from the wide operand with the chunk
loop, then `compare(a, &bn)`.  Note there is no wide-value check and no error
return path: the result is always one of the three ordering verdicts. -/
def compare_d (a : Int) (v : Nat) : MpOrd := compare a (compareDValue v)

/-- `add` from source: delegates to `mbedtls_mpi_add_mpi` (which can only
fail on allocation, not modelled). -/
def add (a b : Int) : Except CryptErr Int := .ok (a + b)

/-- `sub` from source: delegates to `mbedtls_mpi_sub_mpi`. -/
def sub (a b : Int) : Except CryptErr Int := .ok (a - b)

/-- `mul` from source: delegates to `mbedtls_mpi_mul_mpi`. -/
def mul (a b : Int) : Except CryptErr Int := .ok (a * b)

/-- `set_int` from source: `uint32_t b32 = b; if (b32 != b) return
CRYPT_INVALID_ARG;` then copy the single-limb value `b32` into the
destination. -/
def set_int (v : Nat) : Except CryptErr Int :=
  let v32 := v % base
  if v32 ≠ v then .error .CRYPT_INVALID_ARG else .ok (v32 : Int)

/-- `addi` from source: same `uint32_t` overflow check as `set_int`, then
`add(a, &bn, c)` with the single-limb value. -/
def addi (a : Int) (v : Nat) : Except CryptErr Int :=
  let v32 := v % base
  if v32 ≠ v then .error .CRYPT_INVALID_ARG else add a (v32 : Int)

/-- `subi` from source: overflow check, then `sub(a, &bn, c)`. -/
def subi (a : Int) (v : Nat) : Except CryptErr Int :=
  let v32 := v % base
  if v32 ≠ v then .error .CRYPT_INVALID_ARG else sub a (v32 : Int)

/-- `muli` from source: `if (b > (unsigned long) UINT32_MAX) return
CRYPT_INVALID_ARG;` then `mbedtls_mpi_mul_int(c, a, b)`. -/
def muli (a : Int) (v : Nat) : Except CryptErr Int :=
  if base - 1 < v then .error .CRYPT_INVALID_ARG else .ok (a * (v : Int))

/-- Modelled from the spec: `mbedtls_mpi_mod_mpi` is the backend
modulus-reduction primitive; `mod(a,n)` "returns the unique `r` with
`0 ≤ r < |n|`" (sign-normalized Euclidean convention), and a
division-by-structurally-invalid-operand (zero modulus) is an error. -/
def mbedtls_mpi_mod_mpi (a n : Int) : Option Int :=
  if n = 0 then none else some (a % (n.natAbs : Int))

/-- `mod` from source: call the backend reduction and translate its failure
(other than allocation, which is not modelled) to `CRYPT_ERROR`. -/
def mod (a n : Int) : Except CryptErr Int :=
  match mbedtls_mpi_mod_mpi a n with
  | none => .error .CRYPT_ERROR
  | some r => .ok r

/-- `mulmod` from source: reduce both operands mod `n`, multiply the reduced
operands, then reduce the product again. -/
def mulmod (a b n : Int) : Except CryptErr Int :=
  match mod a n with
  | .error e => .error e
  | .ok ta =>
    match mod b n with
    | .error e => .error e
    | .ok tb =>
      match mul ta tb with
      | .error e => .error e
      | .ok d => mod d n

/-- Digit decomposition of a non-negative value, fuel-indexed to stay
structurally recursive; `toDigits v` uses fuel `v`, which is always enough. -/
def toDigitsF : Nat → Nat → List Nat
  | 0, _ => []
  | fuel + 1, v => if v = 0 then [] else v % base :: toDigitsF fuel (v / base)

/-- Little-endian 32-bit digit list of a non-negative value. -/
def toDigits (v : Nat) : List Nat := toDigitsF v v

/-- The (normalized, non-negative) `mbedtls_mpi` holding a given magnitude. -/
def natMPInt (v : Nat) : MPInt := ⟨1, toDigits v⟩

/-- `modi` from source: build `bn_b` from the wide operand via `set_int`
(propagating its overflow error), compute `bn_c = bn_b mod a` with
`mbedtls_mpi_mod_mpi` (any failure is mapped to `CRYPT_MEM`), and store
`get_int(&bn_c)` into the output.  Note the operand order: the small digit is
reduced modulo the big integer `a`. -/
def modi (a : Int) (v : Nat) : Except CryptErr Nat :=
  match set_int v with
  | .error e => .error e
  | .ok bv =>
    match mbedtls_mpi_mod_mpi bv a with
    | none => .error .CRYPT_MEM
    | some r => .ok (get_int (natMPInt r.toNat))

/-- Minimal bit length of a magnitude, as `mbedtls_mpi_bitlen` returns it
(0 for the value 0). -/
def bitlen (n : Nat) : Nat := if n = 0 then 0 else Nat.log2 n + 1

/-- Minimal byte size of a magnitude, as `mbedtls_mpi_size` returns it. -/
def sizeBytes (n : Nat) : Nat := (bitlen n + 7) / 8

/-- `ROUNDUP(v, 4)` from source (round up to a multiple of the 4-byte limb
size). -/
def roundup4 (v : Nat) : Nat := ((v + 3) / 4) * 4

/-- `montgomery_normalization` from source: `c = ROUNDUP(size(N), 4) * 8`,
then `R = 1 << c` reduced mod `N`. -/
def montgomery_normalization (n : Nat) : Nat :=
  2 ^ (roundup4 (sizeBytes n) * 8) % n

/-- Limb count of the (trimmed) modulus, over which `mpi_montred` runs its
digit-at-a-time loop. -/
def nlimbs (n : Nat) : Nat := (bitlen n + 31) / 32

/-- Modelled from the spec: one iteration of the Newton-style digit
inversion used by `mpi_montg_init`, `x ← x·(2 - n0·x) mod 2^w`, written
without integer subtraction as `2·x + (2^w - (n0·x·x) mod 2^w)` mod `2^w`. -/
def newtonStep (n0 x : Nat) : Nat :=
  (2 * x + (base - n0 * x * x % base)) % base

/-- Modelled from the spec: `mpi_montg_init` derives the reduction constant
from the low limb `n0 = N mod 2^w` by Newton-iteration-style digit inversion;
six doublings take the initial 3 bits of precision (for odd `n0`,
`n0·n0 ≡ 1 (mod 8)`) beyond the 32-bit digit width. -/
def newtonInv (n : Nat) : Nat :=
  let n0 := n % base
  newtonStep n0 (newtonStep n0 (newtonStep n0 (newtonStep n0
    (newtonStep n0 (newtonStep n0 n0)))))

/-- `montgomery_setup` from source: the context is the single digit
`mm ≡ -N⁻¹ (mod 2^w)` computed by `mpi_montg_init` (modelled from the spec
via the Newton inversion above, then negated mod `2^w`). -/
def montgomery_setup (n : Nat) : Nat := (base - newtonInv n) % base

/-- Modelled from the spec: one digit-elimination step of REDC.  The digit
`u = (A mod 2^w)·mm mod 2^w` makes `A + u·N` divisible by `2^w`, and the
digit-aligned shift down by one digit is the exact division by `2^w`. -/
def redcStep (mm n A : Nat) : Nat :=
  (A + A % base * mm % base * n) / base

/-- Modelled from the spec: the digit-at-a-time elimination loop of REDC,
one `redcStep` per limb of the modulus. -/
def redcLoop (mm n : Nat) : Nat → Nat → Nat
  | 0, A => A
  | k + 1, A => redcLoop mm n k (redcStep mm n A)

/-- Modelled from the spec: `mpi_montred` runs the digit-at-a-time
elimination over the modulus's limb count and finishes with the conditional
subtraction of `N`. -/
def mpi_montred (A n mm : Nat) : Nat :=
  let r := redcLoop mm n (nlimbs n) A
  if n ≤ r then r - n else r

/-- `montgomery_reduce` from source: if the operand exceeds the modulus it is
first reduced mod `N` (defensive path, `mbedtls_mpi_cmp_mpi(a, N) > 0`),
then `mpi_montred` is applied. -/
def montgomery_reduce (a n mm : Nat) : Nat :=
  if n < a then mpi_montred (a % n) n mm else mpi_montred a n mm

/-- mbedTLS result classes relevant to `isprime`: success (0),
`MBEDTLS_ERR_MPI_NOT_ACCEPTABLE` (composite), `MBEDTLS_ERR_MPI_ALLOC_FAILED`
and `MBEDTLS_ERR_MPI_FILE_IO_ERROR`. -/
inductive MbedRes where
  | success
  | notAcceptable
  | allocFailed
  | fileIoErr
deriving DecidableEq

/-- Primality verdicts `LTC_MP_YES` / `LTC_MP_NO` stored through `*c`. -/
inductive LtcVerdict where
  | LTC_MP_YES
  | LTC_MP_NO
deriving DecidableEq

/-- `rng_read` from source, the randomness trampoline handed to the backend:
`if (sprng_read(buf, blen, NULL) == 0) return MBEDTLS_ERR_MPI_FILE_IO_ERROR;
return 0;` as a function of the byte count the process-wide source
delivered. -/
def rng_read (bytesRead : Nat) : MbedRes :=
  if bytesRead = 0 then .fileIoErr else .success

/-- Modelled from the spec: `mbedtls_mpi_is_prime` draws randomness only from
the injected callback and propagates the callback's failure code; on a
successfully completed test it returns 0 for a probable prime and
`MBEDTLS_ERR_MPI_NOT_ACCEPTABLE` for a composite. -/
def mbedtls_mpi_is_prime (rngRes : MbedRes) (composite : Bool) : MbedRes :=
  if rngRes ≠ .success then rngRes
  else if composite then .notAcceptable else .success

/-- `isprime` from source, as the translation it applies to the backend
result: `ALLOC_FAILED` becomes `CRYPT_MEM`; every other nonzero code sets the
verdict to `LTC_MP_NO` under `CRYPT_OK`; zero sets `LTC_MP_YES`. -/
def isprime (res : MbedRes) : Except CryptErr LtcVerdict :=
  if res = .allocFailed then .error .CRYPT_MEM
  else if res ≠ .success then .ok .LTC_MP_NO
  else .ok .LTC_MP_YES

/-- Pointwise update of a pointer environment (each live `mbedtls_mpi`
handle is a cell holding a signed value). -/
def updEnv (env : Nat → Int) (p : Nat) (v : Int) : Nat → Int :=
  fun q => if q = p then v else env q

/-- Modelled from the spec: the backend one-shot routine
`mbedtls_mpi_exp_mod` computes into the destination cell.  `f` is its
behavior on a destination that is fresh (distinct from every operand); `g` is
its arbitrary, possibly corrupted behavior when the destination aliases an
operand mid-computation ("the backend corrupting an operand
mid-computation").  `none` is a failing backend call (destination cell left
unwritten). -/
def mbedtls_mpi_exp_mod (f g : Int → Int → Int → Option Int) (env : Nat → Int)
    (pa pb pc pdest : Nat) : Option (Nat → Int) :=
  let r := if pdest = pa ∨ pdest = pb ∨ pdest = pc then
    g (env pa) (env pb) (env pc)
  else
    f (env pa) (env pb) (env pc)
  match r with
  | none => none
  | some v => some (updEnv env pdest v)

/-- `exptmod` from source: `if (d == a || d == b || d == c)` compute into a
scratch value `dest` and copy it into `d` afterward, otherwise compute into
`d` directly; any backend failure is reported as `CRYPT_MEM`.  `psc` is the
cell of the freshly initialised scratch value. -/
def exptmod (f g : Int → Int → Int → Option Int) (env : Nat → Int)
    (pa pb pc pd psc : Nat) : Except CryptErr (Nat → Int) :=
  if pd = pa ∨ pd = pb ∨ pd = pc then
    match mbedtls_mpi_exp_mod f g env pa pb pc psc with
    | none => .error .CRYPT_MEM
    | some env1 => .ok (updEnv env1 pd (env1 psc))
  else
    match mbedtls_mpi_exp_mod f g env pa pb pc pd with
    | none => .error .CRYPT_MEM
    | some env1 => .ok env1

/-- Spec-side composition for the `exptmod` aliasing claim: always perform
the computation into the fresh scratch cell and copy the scratch into the
destination afterward. -/
def exptmodFreshThenCopy (f g : Int → Int → Int → Option Int)
    (env : Nat → Int) (pa pb pc pd psc : Nat) : Except CryptErr (Nat → Int) :=
  match mbedtls_mpi_exp_mod f g env pa pb pc psc with
  | none => .error .CRYPT_MEM
  | some env1 => .ok (updEnv env1 pd (env1 psc))

/-! ### General facts about the digit base -/

theorem base_pos : 0 < base := by
  simp [base]

theorem one_lt_base : 1 < base := by
  norm_num [base, limbBits]

/-! ### C2: get_int -/

/-- In a little-endian digit list whose digits are below the base, the last
stored digit is the magnitude shifted down by all lower digit positions. -/
theorem getLast_eq_div (ds : List Nat) (h : ∀ d ∈ ds, d < base) :
    (match ds.getLast? with | none => 0 | some d => d)
      = magVal ds / base ^ (ds.length - 1) := by
  induction ds with
  | nil => simp [magVal]
  | cons d tl ih =>
    cases tl with
    | nil => simp [magVal]
    | cons e tl2 =>
      have hd : d < base := h d (by simp)
      have htl : ∀ x ∈ e :: tl2, x < base := fun x hx => h x (by simp [hx])
      rw [List.getLast?_cons_cons, ih htl]
      have h1 : magVal (d :: e :: tl2) = d + base * magVal (e :: tl2) := rfl
      have h2 : (e :: tl2).length - 1 = tl2.length := by simp
      have h3 : (d :: e :: tl2).length - 1 = tl2.length + 1 := by simp
      rw [h1, h2, h3, pow_succ', ← Nat.div_div_eq_div_mul,
        Nat.add_mul_div_left d _ base_pos, Nat.div_eq_of_lt hd, Nat.zero_add]

/-- C2 (amended): `get_int` returns 0 for a zero magnitude; for a nonzero
magnitude it returns the MOST-significant stored digit — the magnitude
shifted down by `32·(digit_count - 1)` bits — not the least-significant one
(see the counterexample). -/
theorem get_int_characterization (a : MPInt) (h : ∀ d ∈ a.digits, d < base) :
    (magVal a.digits = 0 → get_int a = 0) ∧
    (magVal a.digits ≠ 0 →
      get_int a = magVal a.digits / base ^ (a.digits.length - 1)) := by
  have hg : get_int a = magVal a.digits / base ^ (a.digits.length - 1) :=
    getLast_eq_div a.digits h
  exact ⟨fun h0 => by rw [hg, h0, Nat.zero_div], fun _ => hg⟩

/-- C2 witness: a two-limb value with well-formed digits, evaluated through
the characterization theorem. -/
theorem get_int_characterization_witness :
    (∀ d ∈ (MPInt.mk 1 [5, 0]).digits, d < base) ∧
    ((magVal (MPInt.mk 1 [5, 0]).digits = 0 → get_int (MPInt.mk 1 [5, 0]) = 0) ∧
     (magVal (MPInt.mk 1 [5, 0]).digits ≠ 0 →
       get_int (MPInt.mk 1 [5, 0])
         = magVal (MPInt.mk 1 [5, 0]).digits
             / base ^ ((MPInt.mk 1 [5, 0]).digits.length - 1))) :=
  ⟨by decide, get_int_characterization ⟨1, [5, 0]⟩ (by decide)⟩

/-- C2 counterexample: on the two-limb value with limbs `[1, 2]`
(magnitude `1 + 2·2^32`), `get_int` returns the most-significant stored limb
2, not the least-significant stored limb 1 as the claim states. -/
theorem get_int_not_least_significant :
    get_int ⟨1, [1, 2]⟩ = 2 ∧
    (MPInt.mk 1 [1, 2]).digits.headD 0 = 1 ∧ (2 : Nat) ≠ 1 := by
  exact ⟨rfl, rfl, by decide⟩

/-! ### C9: neg on a zero value -/

/-- C9: evaluation of the code at the failing input.  `neg` copies and then
unconditionally flips the sign, so negating the canonical zero (sign 1, no
stored limbs) yields a zero-magnitude value carrying sign -1, violating the
"magnitude zero is conventionally non-negative" invariant. -/
theorem neg_zero_negative_sign :
    (neg ⟨1, []⟩).s = -1 ∧ magVal (neg ⟨1, []⟩).digits = 0 := by
  exact ⟨rfl, rfl⟩

/-! ### C3: isprime and the random-source failure -/

/-- C3 counterexample: when the injected random source fails (the trampoline
returns the I/O error code to the backend), `isprime` reports `CRYPT_OK` with
verdict `LTC_MP_NO` — a successful NO verdict, indistinguishable from a
genuine COMPOSITE result — contradicting the claim that a random-source
failure is signalled as a distinct I/O-class error. -/
theorem isprime_rng_failure_reported_as_no :
    isprime (mbedtls_mpi_is_prime (rng_read 0) false) = .ok .LTC_MP_NO ∧
    isprime (mbedtls_mpi_is_prime (rng_read 0) false)
      = isprime (mbedtls_mpi_is_prime .success true) := by
  exact ⟨rfl, rfl⟩

/-- C3 (amended): the trampoline `rng_read` does signal a distinct I/O-class
code to the backend (different from the allocation-failure code), and
`isprime` keeps allocation failure distinct (`CRYPT_MEM`); but any other
backend failure — including the random-source I/O error — is reported as a
successful `LTC_MP_NO` verdict, whatever the primality of the input. -/
theorem isprime_rng_failure_behavior (composite : Bool) :
    rng_read 0 = .fileIoErr ∧
    MbedRes.fileIoErr ≠ MbedRes.allocFailed ∧
    isprime MbedRes.allocFailed = .error .CRYPT_MEM ∧
    isprime (mbedtls_mpi_is_prime (rng_read 0) composite) = .ok .LTC_MP_NO := by
  exact ⟨rfl, by decide, rfl, rfl⟩

/-! ### C6: small-operand overflow checks -/

/-- C6 counterexample: `compare_d` does not signal `CRYPT_INVALID_ARG` on a
wide operand — it has no error return path at all.  On the wide value `2^32`
it returns the successful ordering verdict `LTC_MP_LT` (comparing 0 against
the chunk-reassembled value 2). -/
theorem compare_d_wide_no_invalid_arg :
    compare_d 0 (2 ^ 32) = .LTC_MP_LT := by decide

/-- C6 (amended): of the six small-operand entry points, `set_int`, `addi`,
`subi`, `muli` and `modi` signal `CRYPT_INVALID_ARG` when the wide value
exceeds a single 32-bit digit; `compare_d` does not (it has no error channel
and instead compares against a value reassembled from the wide operand). -/
theorem small_operand_wide_invalid_arg (a : Int) (v : Nat) (hv : base ≤ v) :
    set_int v = .error .CRYPT_INVALID_ARG ∧
    addi a v = .error .CRYPT_INVALID_ARG ∧
    subi a v = .error .CRYPT_INVALID_ARG ∧
    muli a v = .error .CRYPT_INVALID_ARG ∧
    modi a v = .error .CRYPT_INVALID_ARG := by
  have hlt : v % base < base := Nat.mod_lt v base_pos
  have h1 : v % base ≠ v := by omega
  have h2 : base - 1 < v := by omega
  refine ⟨?_, ?_, ?_, ?_, ?_⟩ <;>
    simp [set_int, addi, subi, muli, modi, h1, h2]

/-- C6 witness: the smallest wide value, `2^32` itself. -/
theorem small_operand_wide_invalid_arg_witness :
    base ≤ base ∧
    (set_int base = .error .CRYPT_INVALID_ARG ∧
     addi 0 base = .error .CRYPT_INVALID_ARG ∧
     subi 0 base = .error .CRYPT_INVALID_ARG ∧
     muli 0 base = .error .CRYPT_INVALID_ARG ∧
     modi 0 base = .error .CRYPT_INVALID_ARG) :=
  ⟨Nat.le_refl base, small_operand_wide_invalid_arg 0 base (Nat.le_refl base)⟩

/-! ### C7: compare_d versus compare on a single-digit value -/

/-- C7: evaluation of the code at the failing input.  The `compare_d` loop
accumulates 31-bit chunks in the wrong order (it shifts the already-added low
chunk upward), so for the single-digit value `2^31` it compares against 1:
`compare_d(5, 2^31)` answers GREATER while `compare(5, 2^31)` answers LESS. -/
theorem compare_d_wrong_chunk_order :
    (2 ^ 31 : Nat) < base ∧
    compareDValue (2 ^ 31) = 1 ∧
    compare_d 5 (2 ^ 31) = .LTC_MP_GT ∧
    compare 5 (((2 ^ 31 : Nat) : Int)) = .LTC_MP_LT := by
  exact ⟨by decide, by decide, by decide, by decide⟩

/-! ### C4: mulmod against mod of mul -/

/-- C4: for a nonzero modulus, `mulmod(a, b, n)` (which reduces both
operands, multiplies and reduces again) agrees with `mod(mul(a, b), n)` in
both the result value and the success/error outcome. -/
theorem mulmod_eq_mod_of_mul (a b n : Int) (hn : n ≠ 0) :
    mulmod a b n = Except.bind (mul a b) (fun p => mod p n) := by
  simp only [mulmod, mod, mul, mbedtls_mpi_mod_mpi, if_neg hn, Except.bind]
  rw [Int.mul_emod a b]

/-- C4 witness at `a = 3`, `b = 4`, `n = 5`. -/
theorem mulmod_eq_mod_of_mul_witness :
    (5 : Int) ≠ 0 ∧ mulmod 3 4 5 = Except.bind (mul 3 4) (fun p => mod p 5) :=
  ⟨by decide, mulmod_eq_mod_of_mul 3 4 5 (by decide)⟩

/-! ### C8: mod returns the Euclidean remainder -/

/-- C8: for every `a` and every nonzero `n` of either sign, `mod(a, n)`
succeeds and returns the unique `r` with `0 ≤ r < |n|` congruent to `a`
modulo `n` — in particular always non-negative. -/
theorem mod_euclidean_remainder (a n : Int) (hn : n ≠ 0) :
    ∃ r, mod a n = .ok r ∧ 0 ≤ r ∧ r < |n| ∧ n ∣ (a - r) ∧
      ∀ s, 0 ≤ s → s < |n| → n ∣ (a - s) → s = r := by
  have hm : ((n.natAbs : Nat) : Int) ≠ 0 := by simpa using hn
  have hmpos : (0 : Int) < ((n.natAbs : Nat) : Int) := by
    have := Int.natAbs_pos.mpr hn
    exact_mod_cast this
  have habs : |n| = ((n.natAbs : Nat) : Int) := Int.abs_eq_natAbs n
  have hdvd : n ∣ a - a % ((n.natAbs : Nat) : Int) := by
    refine Int.natAbs_dvd.mp ⟨a / ((n.natAbs : Nat) : Int), ?_⟩
    rw [Int.emod_def]
    ring
  refine ⟨a % ((n.natAbs : Nat) : Int), ?_, Int.emod_nonneg a hm, ?_, hdvd, ?_⟩
  · simp [mod, mbedtls_mpi_mod_mpi, hn]
  · rw [habs]
    exact Int.emod_lt_of_pos a hmpos
  · intro s hs0 hs1 hsd
    have hdiff : ((n.natAbs : Nat) : Int) ∣ a % ((n.natAbs : Nat) : Int) - s := by
      have h1 : n ∣ (a - s) - (a - a % ((n.natAbs : Nat) : Int)) :=
        dvd_sub hsd hdvd
      have h2 : (a - s) - (a - a % ((n.natAbs : Nat) : Int))
          = a % ((n.natAbs : Nat) : Int) - s := by ring
      rw [h2] at h1
      exact Int.natAbs_dvd.mpr h1
    have hr0 : 0 ≤ a % ((n.natAbs : Nat) : Int) := Int.emod_nonneg a hm
    have hr1 : a % ((n.natAbs : Nat) : Int) < ((n.natAbs : Nat) : Int) :=
      Int.emod_lt_of_pos a hmpos
    rw [habs] at hs1
    obtain ⟨t, ht⟩ := hdiff
    have ht0 : t = 0 := by
      by_contra hne
      have h1le : 1 ≤ |t| := Int.one_le_abs hne
      have hge : ((n.natAbs : Nat) : Int) ≤ |((n.natAbs : Nat) : Int) * t| := by
        rw [abs_mul, abs_of_pos hmpos]
        nlinarith
      rw [← ht] at hge
      have hlt2 : |a % ((n.natAbs : Nat) : Int) - s| < ((n.natAbs : Nat) : Int) := by
        rw [abs_lt]
        constructor <;> linarith
      linarith
    rw [ht0, mul_zero] at ht
    linarith

/-- C8 witness at `a = -7`, `n = 3` (negative dividend, remainder 2). -/
theorem mod_euclidean_remainder_witness :
    (3 : Int) ≠ 0 ∧
    (∃ r, mod (-7) 3 = .ok r ∧ 0 ≤ r ∧ r < |(3 : Int)| ∧ (3 : Int) ∣ (-7 - r) ∧
      ∀ s, 0 ≤ s → s < |(3 : Int)| → (3 : Int) ∣ (-7 - s) → s = r) :=
  ⟨by decide, mod_euclidean_remainder (-7) 3 (by decide)⟩

/-! ### C10: modi reduces the digit modulo the big operand -/

theorem toDigitsF_fuel_zero (fuel : Nat) : toDigitsF fuel 0 = [] := by
  cases fuel <;> simp [toDigitsF]

/-- A single-digit magnitude round-trips through the canonical `mbedtls_mpi`
representation and `get_int`. -/
theorem get_int_natMPInt (v : Nat) (hv : v < base) : get_int (natMPInt v) = v := by
  cases v with
  | zero => rfl
  | succ w =>
    unfold natMPInt toDigits
    rw [show toDigitsF (w + 1) (w + 1)
        = (w + 1) % base :: toDigitsF w ((w + 1) / base) from by simp [toDigitsF]]
    rw [Nat.mod_eq_of_lt hv, Nat.div_eq_of_lt hv, toDigitsF_fuel_zero]
    rfl

/-- C10: for a nonzero big operand `a` and a small value `v` that fits in a
single digit, `modi(a, v)` stores `v mod |a|` — the small digit reduced
modulo the big-integer operand — not `a mod v`. -/
theorem modi_digit_mod_big (a : Int) (v : Nat) (ha : a ≠ 0) (hv : v < base) :
    modi a v = .ok (v % a.natAbs) := by
  have hv32 : v % base = v := Nat.mod_eq_of_lt hv
  have hset : set_int v = .ok (v : Int) := by
    simp [set_int, hv32]
  have hmod : mbedtls_mpi_mod_mpi (v : Int) a = some ((v % a.natAbs : Nat) : Int) := by
    rw [mbedtls_mpi_mod_mpi, if_neg ha]
    norm_cast
  have hlt : v % a.natAbs < base := lt_of_le_of_lt (Nat.mod_le v a.natAbs) hv
  simp only [modi, hset, hmod, Int.toNat_natCast]
  rw [get_int_natMPInt _ hlt]

/-- C10 witness at `a = 7`, `v = 20`: the output is `20 mod 7 = 6`. -/
theorem modi_digit_mod_big_witness :
    (7 : Int) ≠ 0 ∧ 20 < base ∧ modi 7 20 = .ok (20 % (7 : Int).natAbs) :=
  ⟨by decide, by decide, modi_digit_mod_big 7 20 (by decide) (by decide)⟩

/-! ### C5: exptmod destination aliasing -/

/-- C5: invoking `exptmod` with any destination — aliased to an operand or
not — yields the same success/error outcome and the same destination value
as always computing into a fresh scratch and copying it into the
destination, for every backend fresh-destination behavior `f` and every
(possibly corrupting) aliased-destination behavior `g`: the adapter's branch
never lets the backend write onto a cell it is reading. -/
theorem exptmod_alias_equiv (f g : Int → Int → Int → Option Int)
    (env : Nat → Int) (pa pb pc pd psc : Nat)
    (hsa : psc ≠ pa) (hsb : psc ≠ pb) (hsc : psc ≠ pc) (_hsd : psc ≠ pd) :
    Except.map (fun e => e pd) (exptmod f g env pa pb pc pd psc) =
    Except.map (fun e => e pd) (exptmodFreshThenCopy f g env pa pb pc pd psc) := by
  have hscond : ¬ (psc = pa ∨ psc = pb ∨ psc = pc) := by
    push_neg
    exact ⟨hsa, hsb, hsc⟩
  by_cases hal : pd = pa ∨ pd = pb ∨ pd = pc
  · simp [exptmod, exptmodFreshThenCopy, hal]
  · cases hf : f (env pa) (env pb) (env pc) with
    | none =>
      simp [exptmod, exptmodFreshThenCopy, mbedtls_mpi_exp_mod, hal, hscond, hf]
    | some v =>
      simp [exptmod, exptmodFreshThenCopy, mbedtls_mpi_exp_mod, hal, hscond, hf,
        Except.map, updEnv]

/-! ### C1: Montgomery round trip

The Newton iteration doubles the precision of the digit inverse at every
step; six steps starting from the three bits that hold for any odd digit
take it past the 32-bit digit width.  The REDC loop multiplies the residue
by the inverse of the base once per limb, and the accumulated value stays
below `2^(32k)·N`, so the final conditional subtraction never fires for an
operand already below the modulus. -/

theorem newtonStep_dvd (n0 x j : Nat)
    (h : (2 : Int) ^ j ∣ (n0 : Int) * (x : Int) - 1) :
    (2 : Int) ^ min (2 * j) limbBits ∣
      (n0 : Int) * ((newtonStep n0 x : Nat) : Int) - 1 := by
  obtain ⟨w, hw⟩ := h
  set r : Nat := n0 * x * x % base with hrdef
  set s : Nat := newtonStep n0 x with hsdef
  have hrle : r ≤ base := (Nat.mod_lt _ base_pos).le
  have hsNat : s = (2 * x + (base - r)) % base := by
    rw [hsdef, newtonStep, ← hrdef]
  have h2 : base ∣ 2 * x + (base - r) - s := by
    rw [hsNat]
    exact (Nat.modEq_iff_dvd' (Nat.mod_le _ _)).mp (Nat.mod_modEq _ _)
  have hsle : s ≤ 2 * x + (base - r) := by
    rw [hsNat]
    exact Nat.mod_le _ _
  obtain ⟨t1, ht1⟩ := h2
  have ht1'' : 2 * x + base = s + base * t1 + r := by omega
  have ht1Int : 2 * (x : Int) + ((base : Nat) : Int)
      = (s : Int) + ((base : Nat) : Int) * (t1 : Int) + (r : Int) := by
    exact_mod_cast ht1''
  have ht2'' : n0 * x * x = base * (n0 * x * x / base) + r := by
    rw [hrdef]
    exact (Nat.div_add_mod _ _).symm
  have ht2Int : (n0 : Int) * (x : Int) * (x : Int)
      = ((base : Nat) : Int) * ((n0 * x * x / base : Nat) : Int) + (r : Int) := by
    exact_mod_cast ht2''
  have key : (n0 : Int) * (s : Int) - 1
      = -((n0 : Int) * (x : Int) - 1) ^ 2
        + ((base : Nat) : Int)
            * ((n0 : Int) + (n0 : Int) * ((n0 * x * x / base : Nat) : Int)
                - (n0 : Int) * (t1 : Int)) := by
    linear_combination (-(n0 : Int)) * ht1Int + (n0 : Int) * ht2Int
  rw [key]
  apply dvd_add
  · rw [hw]
    refine dvd_neg.mpr ?_
    have hpow : ((2 : Int) ^ j * w) ^ 2 = 2 ^ (2 * j) * w ^ 2 := by ring
    rw [hpow]
    exact Dvd.dvd.mul_right (pow_dvd_pow 2 (min_le_left _ _)) _
  · have hbB : ((base : Nat) : Int) = (2 : Int) ^ limbBits := by
      unfold base
      push_cast
      ring
    rw [hbB]
    exact Dvd.dvd.mul_right (pow_dvd_pow 2 (min_le_right _ _)) _

theorem newton_start_dvd (n0 : Nat) (h : n0 % 2 = 1) :
    (2 : Int) ^ 3 ∣ (n0 : Int) * (n0 : Int) - 1 := by
  obtain ⟨m, hm⟩ : ∃ m, n0 = 2 * m + 1 := ⟨n0 / 2, by omega⟩
  obtain ⟨t, ht⟩ := Nat.even_mul_succ_self m
  refine ⟨(t : Int), ?_⟩
  subst hm
  have htI : (m : Int) * ((m : Int) + 1) = (t : Int) + (t : Int) := by
    exact_mod_cast ht
  push_cast
  linear_combination 4 * htI

/-- Precision in the digit inverse established for the low limb `n mod 2^w`
transfers to the full modulus, since the two agree modulo `2^w`. -/
theorem newton_lift_mod (n y : Nat)
    (h : (2 : Int) ^ limbBits ∣ ((n % base : Nat) : Int) * (y : Int) - 1) :
    (2 : Int) ^ limbBits ∣ (n : Int) * (y : Int) - 1 := by
  have hbB : ((base : Nat) : Int) = (2 : Int) ^ limbBits := by
    unfold base
    push_cast
    ring
  have hmod : ((n % base : Nat) : Int) ≡ (n : Int) [ZMOD ((base : Nat) : Int)] := by
    rw [Int.natCast_mod]
    exact Int.mod_modEq _ _
  have hd2 : (2 : Int) ^ limbBits
      ∣ ((n : Int) * (y : Int) - 1) - (((n % base : Nat) : Int) * (y : Int) - 1) := by
    rw [← hbB]
    exact ((hmod.mul_right _).sub_right 1).dvd
  have hsum := dvd_add h hd2
  have hring : ((n % base : Nat) : Int) * (y : Int) - 1
      + (((n : Int) * (y : Int) - 1) - (((n % base : Nat) : Int) * (y : Int) - 1))
      = (n : Int) * (y : Int) - 1 := by ring
  rwa [hring] at hsum

theorem newtonInv_inverse (n : Nat) (h : n % 2 = 1) :
    (2 : Int) ^ limbBits ∣ (n : Int) * ((newtonInv n : Nat) : Int) - 1 := by
  have h2base : (2 : Nat) ∣ base := by
    unfold base limbBits
    exact dvd_pow_self 2 (by norm_num)
  have hn0odd : n % base % 2 = 1 := by
    rw [Nat.mod_mod_of_dvd n h2base]
    exact h
  have s0 := newton_start_dvd (n % base) hn0odd
  have s1 := newtonStep_dvd (n % base) (n % base) 3 s0
  rw [show min (2 * 3) limbBits = 6 from by norm_num [limbBits]] at s1
  have s2 := newtonStep_dvd (n % base) _ 6 s1
  rw [show min (2 * 6) limbBits = 12 from by norm_num [limbBits]] at s2
  have s3 := newtonStep_dvd (n % base) _ 12 s2
  rw [show min (2 * 12) limbBits = 24 from by norm_num [limbBits]] at s3
  have s4 := newtonStep_dvd (n % base) _ 24 s3
  rw [show min (2 * 24) limbBits = limbBits from by norm_num [limbBits]] at s4
  have s5 := newtonStep_dvd (n % base) _ limbBits s4
  rw [show min (2 * limbBits) limbBits = limbBits from by norm_num [limbBits]] at s5
  have s6 := newtonStep_dvd (n % base) _ limbBits s5
  rw [show min (2 * limbBits) limbBits = limbBits from by norm_num [limbBits]] at s6
  have hfold : newtonInv n
      = newtonStep (n % base) (newtonStep (n % base) (newtonStep (n % base)
          (newtonStep (n % base) (newtonStep (n % base)
            (newtonStep (n % base) (n % base)))))) := rfl
  rw [hfold]
  exact newton_lift_mod n _ s6

theorem montgomery_setup_neg_inv (n : Nat) (h : n % 2 = 1) :
    ((base : Nat) : Int) ∣ (n : Int) * ((montgomery_setup n : Nat) : Int) + 1 := by
  have hinv := newtonInv_inverse n h
  have hile : newtonInv n ≤ base := by
    have hfold2 : newtonInv n
        = newtonStep (n % base) (newtonStep (n % base) (newtonStep (n % base)
            (newtonStep (n % base) (newtonStep (n % base)
              (newtonStep (n % base) (n % base)))))) := rfl
    rw [hfold2]
    unfold newtonStep
    exact (Nat.mod_lt _ base_pos).le
  have hsetup : ((montgomery_setup n : Nat) : Int)
      ≡ ((base : Nat) : Int) - ((newtonInv n : Nat) : Int)
        [ZMOD ((base : Nat) : Int)] := by
    have h1 : ((montgomery_setup n : Nat) : Int)
        = ((base - newtonInv n : Nat) : Int) % ((base : Nat) : Int) := by
      unfold montgomery_setup
      rw [Int.natCast_mod]
    have h2 : ((base - newtonInv n : Nat) : Int)
        = ((base : Nat) : Int) - ((newtonInv n : Nat) : Int) := Nat.cast_sub hile
    rw [h1, h2]
    exact Int.mod_modEq _ _
  obtain ⟨w, hw⟩ := hinv
  have hbB : ((base : Nat) : Int) = (2 : Int) ^ limbBits := by
    unfold base
    push_cast
    ring
  have hfin : (n : Int) * ((montgomery_setup n : Nat) : Int) + 1
      ≡ 0 [ZMOD ((base : Nat) : Int)] := by
    calc (n : Int) * ((montgomery_setup n : Nat) : Int) + 1
        ≡ (n : Int) * (((base : Nat) : Int) - ((newtonInv n : Nat) : Int)) + 1
          [ZMOD ((base : Nat) : Int)] :=
            Int.ModEq.add_right 1 (hsetup.mul_left (n : Int))
      _ = ((base : Nat) : Int) * (n : Int)
            - ((n : Int) * ((newtonInv n : Nat) : Int) - 1) := by ring
      _ ≡ 0 [ZMOD ((base : Nat) : Int)] := by
          refine (Int.modEq_zero_iff_dvd).mpr (dvd_sub ?_ ?_)
          · exact Dvd.dvd.mul_right dvd_rfl _
          · rw [hw, hbB]
            exact Dvd.dvd.mul_right dvd_rfl _
  exact Int.modEq_zero_iff_dvd.mp hfin

theorem redcStep_exact (mm n A : Nat)
    (hmm : ((base : Nat) : Int) ∣ (n : Int) * (mm : Int) + 1) :
    redcStep mm n A * base = A + A % base * mm % base * n := by
  have h1 : ((A % base * mm % base : Nat) : Int)
      ≡ (A : Int) * (mm : Int) [ZMOD ((base : Nat) : Int)] := by
    calc ((A % base * mm % base : Nat) : Int)
        ≡ ((A % base * mm : Nat) : Int) [ZMOD ((base : Nat) : Int)] := by
          have he : ((A % base * mm % base : Nat) : Int)
              = ((A % base * mm : Nat) : Int) % ((base : Nat) : Int) := by
            push_cast
            ring
          rw [he]
          exact Int.mod_modEq _ _
      _ ≡ (A : Int) * (mm : Int) [ZMOD ((base : Nat) : Int)] := by
          have he : ((A % base * mm : Nat) : Int)
              = ((A : Int) % ((base : Nat) : Int)) * (mm : Int) := by
            push_cast
            ring
          rw [he]
          exact (Int.mod_modEq _ _).mul_right _
  have h2 : ((A + A % base * mm % base * n : Nat) : Int)
      ≡ (A : Int) * ((n : Int) * (mm : Int) + 1) [ZMOD ((base : Nat) : Int)] := by
    have h3 : ((A + A % base * mm % base * n : Nat) : Int)
        = (A : Int) + ((A % base * mm % base : Nat) : Int) * (n : Int) := by
      push_cast
      ring
    rw [h3]
    calc (A : Int) + ((A % base * mm % base : Nat) : Int) * (n : Int)
        ≡ (A : Int) + (A : Int) * (mm : Int) * (n : Int)
          [ZMOD ((base : Nat) : Int)] := Int.ModEq.add_left _ (h1.mul_right _)
      _ = (A : Int) * ((n : Int) * (mm : Int) + 1) := by ring
  have hdvd : base ∣ A + A % base * mm % base * n := by
    have hY : ((base : Nat) : Int) ∣ (A : Int) * ((n : Int) * (mm : Int) + 1) :=
      Dvd.dvd.mul_left hmm (A : Int)
    have h4 := h2.trans hY.modEq_zero_int
    exact Int.natCast_dvd_natCast.mp (Int.modEq_zero_iff_dvd.mp h4)
  unfold redcStep
  exact Nat.div_mul_cancel hdvd

theorem redcLoop_bound_modeq (mm n : Nat)
    (hmm : ((base : Nat) : Int) ∣ (n : Int) * (mm : Int) + 1) :
    ∀ k A, redcLoop mm n k A * base ^ k + n ≤ A + base ^ k * n ∧
      redcLoop mm n k A * base ^ k ≡ A [MOD n] := by
  intro k
  induction k with
  | zero =>
    intro A
    refine ⟨by simp [redcLoop], ?_⟩
    simp only [redcLoop, pow_zero, mul_one]
    exact Nat.ModEq.refl A
  | succ k ih =>
    intro A
    obtain ⟨ihb, ihm⟩ := ih (redcStep mm n A)
    have hexact : redcStep mm n A * base = A + A % base * mm % base * n :=
      redcStep_exact mm n A hmm
    have hub : A % base * mm % base < base := Nat.mod_lt _ base_pos
    constructor
    · simp only [redcLoop]
      have h1 : (redcLoop mm n k (redcStep mm n A) * base ^ k + n) * base
          ≤ (redcStep mm n A + base ^ k * n) * base :=
        Nat.mul_le_mul_right base ihb
      have h2 : (redcLoop mm n k (redcStep mm n A) * base ^ k + n) * base
          = redcLoop mm n k (redcStep mm n A) * base ^ (k + 1) + n * base := by
        ring
      have h3 : (redcStep mm n A + base ^ k * n) * base
          = A + A % base * mm % base * n + base ^ (k + 1) * n := by
        rw [add_mul, hexact]
        ring
      rw [h2, h3] at h1
      have h4 : A % base * mm % base * n + n ≤ n * base := by
        have h5 : (A % base * mm % base + 1) * n ≤ base * n :=
          Nat.mul_le_mul_right n hub
        calc A % base * mm % base * n + n
            = (A % base * mm % base + 1) * n := by ring
          _ ≤ base * n := h5
          _ = n * base := by ring
      omega
    · simp only [redcLoop]
      have h1 : redcLoop mm n k (redcStep mm n A) * base ^ (k + 1)
          = redcLoop mm n k (redcStep mm n A) * base ^ k * base := by
        ring
      rw [h1]
      have h2 := ihm.mul_right base
      rw [hexact] at h2
      have h3 : A + A % base * mm % base * n ≡ A [MOD n] := by
        have hz := (Nat.modEq_zero_iff_dvd).mpr
          (dvd_mul_left n (A % base * mm % base))
        calc A + A % base * mm % base * n ≡ A + 0 [MOD n] :=
              Nat.ModEq.add_left A hz
          _ = A := by ring
      exact h2.trans h3

theorem mpi_montred_correct (A n mm : Nat) (_hn : 0 < n) (hA : A < n)
    (hmm : ((base : Nat) : Int) ∣ (n : Int) * (mm : Int) + 1) :
    mpi_montred A n mm < n ∧
      mpi_montred A n mm * base ^ nlimbs n ≡ A [MOD n] := by
  obtain ⟨hb, hm⟩ := redcLoop_bound_modeq mm n hmm (nlimbs n) A
  have hr : redcLoop mm n (nlimbs n) A < n := by
    have h1 : redcLoop mm n (nlimbs n) A * base ^ nlimbs n + n
        < n + base ^ nlimbs n * n := by omega
    have h2 : redcLoop mm n (nlimbs n) A * base ^ nlimbs n
        < base ^ nlimbs n * n := by omega
    rw [mul_comm (base ^ nlimbs n) n] at h2
    exact lt_of_mul_lt_mul_right h2 (Nat.zero_le _)
  have hle : ¬ n ≤ redcLoop mm n (nlimbs n) A := not_le.mpr hr
  constructor
  · simp only [mpi_montred, if_neg hle]
    exact hr
  · simp only [mpi_montred, if_neg hle]
    exact hm

theorem montgomery_normalization_eq (n : Nat) :
    montgomery_normalization n = base ^ nlimbs n % n := by
  have hexp : roundup4 (sizeBytes n) * 8 = limbBits * nlimbs n := by
    unfold roundup4 sizeBytes nlimbs limbBits
    omega
  unfold montgomery_normalization base
  rw [hexp, pow_mul]

/-- C1: for every odd modulus `n` and every `a < n`, reducing
`(a · montgomery_normalization(n)) mod n` with the context produced by
`montgomery_setup(n)` yields exactly `a`. -/
theorem montgomery_round_trip (n a : Nat) (hodd : n % 2 = 1) (ha : a < n) :
    montgomery_reduce (a * montgomery_normalization n % n) n (montgomery_setup n)
      = a := by
  have hn : 0 < n := by omega
  have hmm := montgomery_setup_neg_inv n hodd
  have hx : a * montgomery_normalization n % n < n := Nat.mod_lt _ hn
  obtain ⟨hlt, hmeq⟩ := mpi_montred_correct
    (a * montgomery_normalization n % n) n (montgomery_setup n) hn hx hmm
  have hred : montgomery_reduce (a * montgomery_normalization n % n) n
        (montgomery_setup n)
      = mpi_montred (a * montgomery_normalization n % n) n (montgomery_setup n) := by
    unfold montgomery_reduce
    rw [if_neg (by omega)]
  rw [hred]
  have hxeq : a * montgomery_normalization n % n
      ≡ a * base ^ nlimbs n [MOD n] := by
    calc a * montgomery_normalization n % n
        ≡ a * montgomery_normalization n [MOD n] := Nat.mod_modEq _ n
      _ = a * (base ^ nlimbs n % n) := by rw [montgomery_normalization_eq]
      _ ≡ a * base ^ nlimbs n [MOD n] := Nat.ModEq.mul_left a (Nat.mod_modEq _ n)
  have hfinal : mpi_montred (a * montgomery_normalization n % n) n
        (montgomery_setup n) * base ^ nlimbs n
      ≡ a * base ^ nlimbs n [MOD n] := hmeq.trans hxeq
  have hcop : Nat.gcd n (base ^ nlimbs n) = 1 := by
    have hnd : ¬ (2 : Nat) ∣ n := by omega
    have h2 : Nat.Coprime n 2 :=
      Nat.coprime_comm.mp ((Nat.prime_two.coprime_iff_not_dvd).mpr hnd)
    have hb : Nat.Coprime n base := by
      unfold base
      exact h2.pow_right _
    exact hb.pow_right _
  have hacongr : mpi_montred (a * montgomery_normalization n % n) n
        (montgomery_setup n) ≡ a [MOD n] :=
    Nat.ModEq.cancel_right_of_coprime hcop hfinal
  unfold Nat.ModEq at hacongr
  rw [Nat.mod_eq_of_lt hlt, Nat.mod_eq_of_lt ha] at hacongr
  exact hacongr

/-- C1 witness at `n = 13`, `a = 5`. -/
theorem montgomery_round_trip_witness :
    13 % 2 = 1 ∧ 5 < 13 ∧
    montgomery_reduce (5 * montgomery_normalization 13 % 13) 13
      (montgomery_setup 13) = 5 :=
  ⟨by decide, by decide, montgomery_round_trip 13 5 (by decide) (by decide)⟩

/-- C5 witness: an aliased call (`pd = pa`) with a concrete backend function,
a corrupting aliased behavior, and a concrete environment. -/
theorem exptmod_alias_equiv_witness :
    (3 : Nat) ≠ 0 ∧ (3 : Nat) ≠ 1 ∧ (3 : Nat) ≠ 2 ∧
    Except.map (fun e => e 0)
      (exptmod (fun x y z => some (x + y * z)) (fun _ _ _ => none)
        (fun _ => 2) 0 1 2 0 3) =
    Except.map (fun e => e 0)
      (exptmodFreshThenCopy (fun x y z => some (x + y * z)) (fun _ _ _ => none)
        (fun _ => 2) 0 1 2 0 3) :=
  ⟨by decide, by decide, by decide,
    exptmod_alias_equiv (fun x y z => some (x + y * z)) (fun _ _ _ => none)
      (fun _ => 2) 0 1 2 0 3 (by decide) (by decide) (by decide) (by decide)⟩

end MPIDesc
